import Mathlib

/-!
Verification of the expense-report extraction core of `app.py`.

The Python source is shallowly embedded: strings become `List Char`,
Python `float` values become `ℚ` (all amounts in scope have exact decimal
representations), fallible operations return `Option`.  Each definition is
translated from the corresponding Python construct, named after it where
possible.
-/

/-- Python's whitespace class for `str.strip` and the regex `\s`
(ASCII part; the inputs in scope contain no non-ASCII whitespace). -/
def isPySpace (c : Char) : Bool :=
  c = ' ' || c = '\t' || c = '\n' || c = '\r' || c = Char.ofNat 11 || c = Char.ofNat 12

/-- Python `str.strip()`: remove leading and trailing whitespace. -/
def pyStrip (cs : List Char) : List Char :=
  ((cs.dropWhile isPySpace).reverse.dropWhile isPySpace).reverse

/-- Python `str.find` for a character known to occur in the string:
index of its first occurrence.  (`clean_amount` only consults `find`
when both separators are present, so the `-1` absent case never arises.) -/
def pyFind (x : Char) : List Char → Nat
  | [] => 0
  | c :: rest => if c = x then 0 else pyFind x rest + 1

/-- Numeric value of a list of decimal digit characters (most significant first). -/
def digitsVal (ds : List Char) : Nat :=
  ds.foldl (fun a c => 10 * a + (c.toNat - 48)) 0

/-- Exponent tail of Python's `float` grammar after `e`/`E` and an optional
sign: a nonempty run of digits ending the string. -/
def expDigits (m : ℚ) (sg : ℤ) (t : List Char) : Option ℚ :=
  let ds := t.takeWhile Char.isDigit
  if ds = [] then none
  else if t.dropWhile Char.isDigit = [] then
    some (m * (10 : ℚ) ^ (sg * (digitsVal ds : ℤ)))
  else none

/-- Optional sign of the exponent in Python's `float` grammar. -/
def expTail (m : ℚ) (r : List Char) : Option ℚ :=
  match r with
  | '+' :: t => expDigits m 1 t
  | '-' :: t => expDigits m (-1) t
  | t => expDigits m 1 t

/-- Optional exponent part of Python's `float` grammar: end of string, or
`e`/`E` followed by an optionally signed digit run. -/
def expPart (m : ℚ) (r : List Char) : Option ℚ :=
  match r with
  | [] => some m
  | 'e' :: t => expTail m t
  | 'E' :: t => expTail m t
  | _ => none

/-- Unsigned significand of Python's `float` grammar: digits with an optional
single `.`, at least one digit in total, then an optional exponent.
(Digit-group underscores and the `inf`/`nan` forms, which no input in scope
exercises, are not modelled.) -/
def numPart (cs : List Char) : Option ℚ :=
  let ip := cs.takeWhile Char.isDigit
  let r1 := cs.dropWhile Char.isDigit
  match r1 with
  | '.' :: r2 =>
    let fp := r2.takeWhile Char.isDigit
    let r3 := r2.dropWhile Char.isDigit
    if ip = [] ∧ fp = [] then none
    else expPart ((digitsVal ip : ℚ) + (digitsVal fp : ℚ) / (10 : ℚ) ^ fp.length) r3
  | _ => if ip = [] then none else expPart (digitsVal ip : ℚ) r1

/-- Sign handling of Python's `float` grammar: one optional leading `+`/`-`. -/
def pyFloatSigned : List Char → Option ℚ
  | '+' :: r => numPart r
  | '-' :: r => Option.map (fun q => -q) (numPart r)
  | r => numPart r

/-- Model of Python's built-in `float(str)` on the strings in scope:
surrounding whitespace is ignored, then an optionally signed decimal
number must span the whole string; anything else fails (`ValueError`,
modelled as `none`). -/
def pyFloat (cs : List Char) : Option ℚ :=
  pyFloatSigned (pyStrip cs)

/-- The three-letter currency codes of the regex `(?:USD|EUR|GBP|[€$£])\s*`. -/
def isCode (c1 c2 c3 : Char) : Bool :=
  (c1 = 'U' && c2 = 'S' && c3 = 'D') ||
  (c1 = 'E' && c2 = 'U' && c3 = 'R') ||
  (c1 = 'G' && c2 = 'B' && c3 = 'P')

/-- The one-character currency symbols of the same regex. -/
def isSym (c : Char) : Bool :=
  c = '€' || c = '$' || c = '£'

/-- One left-to-right pass of `re.sub(r'(?:USD|EUR|GBP|[€$£])\s*', '', s)`
(line 23 of `app.py`).  The Boolean argument records whether the scan sits
inside the `\s*` run that follows a just-deleted marker. -/
def subCur (skip : Bool) : List Char → List Char
  | [] => []
  | c1 :: c2 :: c3 :: t =>
    if isCode c1 c2 c3 then subCur true t
    else if isSym c1 then subCur true (c2 :: c3 :: t)
    else if skip && isPySpace c1 then subCur true (c2 :: c3 :: t)
    else c1 :: subCur false (c2 :: c3 :: t)
  | c1 :: t =>
    if isSym c1 then subCur true t
    else if skip && isPySpace c1 then subCur true t
    else c1 :: subCur false t

/-- The currency-marker deletion applied by `clean_amount`. -/
def subCurrency (cs : List Char) : List Char :=
  subCur false cs

/-- Whether the currency-marker regex matches at the head of the string. -/
def isMarkerAt : List Char → Bool
  | c1 :: c2 :: c3 :: _ => isCode c1 c2 c3 || isSym c1
  | c1 :: _ => isSym c1
  | [] => false

/-- No position of the string matches the currency-marker regex. -/
def markerFree (l : List Char) : Prop :=
  ∀ i < l.length, isMarkerAt (l.drop i) = false

/-- Thousands/decimal separator disambiguation of `clean_amount`
(lines 26–34 of `app.py`): with both separators present the leftmost is
stripped as the thousands mark (Spanish vs English format); with only a
comma present the commas are stripped; otherwise the string is unchanged. -/
def disambiguateSeparators (t : List Char) : List Char :=
  if ',' ∈ t ∧ '.' ∈ t then
    if pyFind '.' t < pyFind ',' t then
      (t.filter (fun c => c != '.')).map (fun c => if c = ',' then '.' else c)
    else
      t.filter (fun c => c != ',')
  else if ',' ∈ t then
    t.filter (fun c => c != ',')
  else t

/-- `clean_amount` (lines 17–39 of `app.py`): empty input is falsy and yields
`None`; otherwise the string is stripped, currency markers are deleted,
separators disambiguated, and the residue parsed with `float`, any
`ValueError` yielding `None`. -/
def clean_amount (cs : List Char) : Option ℚ :=
  if cs = [] then none
  else pyFloat (disambiguateSeparators (subCurrency (pyStrip cs)))

/-- The value character class `[\d,.]` of the three amount-field regexes
(lines 59–61 of `app.py`): digits, comma, period only. -/
def isAmountChar (c : Char) : Bool :=
  c.isDigit || c = ',' || c = '.'

/-- The trailing `\s*([\d,.]+)` of the amount-field regexes: skip whitespace,
then capture a nonempty greedy run of amount characters. -/
def tryAmountCap (r : List Char) : Option (List Char) :=
  let cap := (r.dropWhile isPySpace).takeWhile isAmountChar
  if cap = [] then none else some cap

/-- The part of the amount-field regexes after the label:
`\s*:\s*(?:USD|EUR|€)?\s*([\d,.]+)`.  The optional currency group is
greedy, with regex backtracking rendered as the `<|>` chain. -/
def matchAmountAfterLabel (cs : List Char) : Option (List Char) :=
  match cs.dropWhile isPySpace with
  | ':' :: r2 =>
    let r3 := r2.dropWhile isPySpace
    (if ['U', 'S', 'D'].isPrefixOf r3 then tryAmountCap (r3.drop 3) else none) <|>
    (if ['E', 'U', 'R'].isPrefixOf r3 then tryAmountCap (r3.drop 3) else none) <|>
    (match r3 with
     | '€' :: r4 => tryAmountCap r4
     | _ => none) <|>
    tryAmountCap r3
  | _ => none

/-- `re.search` for a pattern of the form `<literal label><rest>`: try the
full pattern at every position from the left and return the first capture. -/
def searchField (label : List Char) (after : List Char → Option (List Char)) :
    List Char → Option (List Char)
  | [] => if label.isPrefixOf ([] : List Char) then after [] else none
  | c :: rest =>
    match (if label.isPrefixOf (c :: rest) then after ((c :: rest).drop label.length)
           else none) with
    | some v => some v
    | none => searchField label after rest

/-- One amount field of `extract_expense_data` (lines 64–69 of `app.py`):
the first regex capture, if any, piped through `clean_amount`. -/
def amountField (label text : List Char) : Option ℚ :=
  (searchField label matchAmountAfterLabel text).bind clean_amount

/-- The part of the legal-entity regex after its label: `\s*:\s*(\S+)`. -/
def matchLegalAfterLabel (cs : List Char) : Option (List Char) :=
  match cs.dropWhile isPySpace with
  | ':' :: r2 =>
    let cap := (r2.dropWhile isPySpace).takeWhile (fun c => !isPySpace c)
    if cap = [] then none else some cap
  | _ => none

/-- Python's `\w` class as used in `re.sub(r'[^\w$]', '', …)` (ASCII part):
letters, digits and underscore. -/
def isWordChar (c : Char) : Bool :=
  c.isAlphanum || c = '_'

/-- The `legal_entity` extraction (lines 46–50 of `app.py`): first match of
`Custom 10-Legal Entity\s*:\s*(\S+)`, stripped, then every character that is
not in `[\w$]` deleted. -/
def legalEntityField (text : List Char) : Option (List Char) :=
  (searchField ("Custom 10-Legal Entity".data) matchLegalAfterLabel text).map
    (fun cap => (pyStrip cap).filter (fun c => isWordChar c || c = '$'))

/-- The `\s*([^\n]+)` tail of the currency regex, including the regex
backtracking that arises when the greedy `\s*` reaches the end of the
string: the capture then falls back to the trailing whitespace run after
the last newline, if nonempty. -/
def currencyCapture (r2 : List Char) : Option (List Char) :=
  match r2.dropWhile isPySpace with
  | c :: rest => some ((c :: rest).takeWhile (fun x => x != '\n'))
  | [] =>
    let t := (r2.reverse.takeWhile (fun x => x != '\n')).reverse
    if t = [] then none else some t

/-- The part of the currency regex after its label: `\s*:\s*([^\n]+)`. -/
def matchCurrencyFieldAfterLabel (cs : List Char) : Option (List Char) :=
  match cs.dropWhile isPySpace with
  | ':' :: r2 => currencyCapture r2
  | _ => none

/-- The `currency` extraction (lines 53–55 of `app.py`): first match of
`Currency\s*:\s*([^\n]+)`, stripped. -/
def currencyField (text : List Char) : Option (List Char) :=
  (searchField ("Currency".data) matchCurrencyFieldAfterLabel text).map pyStrip

/-- The fields of the `ExpenseData` record populated by
`extract_expense_data` (the caller adds `file_name` afterwards). -/
structure ExpenseData where
  legal_entity : Option (List Char)
  currency : Option (List Char)
  amount_due_employee : Option ℚ
  amount_due_company_card : Option ℚ
  total_paid_by_company : Option ℚ
deriving DecidableEq, Repr

/-- `extract_expense_data` (lines 41–71 of `app.py`). -/
def extract_expense_data (text : List Char) : ExpenseData where
  legal_entity := legalEntityField text
  currency := currencyField text
  amount_due_employee := amountField ("Amount Due Employee".data) text
  amount_due_company_card := amountField ("Amount Due Company Card".data) text
  total_paid_by_company := amountField ("Total Paid By Company".data) text

/-- The text handed to `extract_expense_data` by `process_files`
(lines 163–170 of `app.py`): the page texts of the whole document, each
followed by a newline, concatenated in page order. -/
def combinedText (pages : List (List Char)) : List Char :=
  pages.foldl (fun acc p => acc ++ p ++ ['\n']) []

/-- One iteration of the per-document loop of `process_files`
(lines 148–209 of `app.py`), with the external I/O abstracted: a selected
file is a name together with either its extracted page texts or the
exception its processing raises.  A successful document appends one record
to the accumulated output; a failing one is caught by the inner
`try/except`, which appends a diagnostic instead and lets the loop
continue. -/
def batchStep
    (acc : List (List Char × ExpenseData) × List (List Char × List Char))
    (d : List Char × Except (List Char) (List (List Char))) :
    List (List Char × ExpenseData) × List (List Char × List Char) :=
  match d.2 with
  | Except.ok pages =>
    (acc.1 ++ [(d.1, extract_expense_data (combinedText pages))], acc.2)
  | Except.error e => (acc.1, acc.2 ++ [(d.1, e)])

/-- The whole per-document loop of `process_files`: the records collected
in `processed_data` and the diagnostics recorded by the inner `except`. -/
def processBatch
    (docs : List (List Char × Except (List Char) (List (List Char)))) :
    List (List Char × ExpenseData) × List (List Char × List Char) :=
  docs.foldl batchStep ([], [])

/-! ### Generic list helpers -/

theorem dropWhile_eq_self_of {p : Char → Bool} {l : List Char}
    (h : ∀ c ∈ l, p c = false) : l.dropWhile p = l := by
  cases l with
  | nil => rfl
  | cons c rest =>
    rw [List.dropWhile_cons, h c (by simp)]
    simp

theorem takeWhile_eq_self_of {p : Char → Bool} {l : List Char}
    (h : ∀ c ∈ l, p c = true) : l.takeWhile p = l := by
  induction l with
  | nil => rfl
  | cons c rest ih =>
    rw [List.takeWhile_cons, h c (by simp)]
    simp [ih (fun x hx => h x (by simp [hx]))]

theorem dropWhile_eq_nil_of {p : Char → Bool} {l : List Char}
    (h : ∀ c ∈ l, p c = true) : l.dropWhile p = [] := by
  induction l with
  | nil => rfl
  | cons c rest ih =>
    rw [List.dropWhile_cons, h c (by simp)]
    simp only [if_true]
    exact ih (fun x hx => h x (by simp [hx]))

theorem takeWhile_append_stop {p : Char → Bool} {l r : List Char} {x : Char}
    (h : ∀ c ∈ l, p c = true) (hx : p x = false) :
    (l ++ x :: r).takeWhile p = l := by
  induction l with
  | nil => simp [List.takeWhile_cons, hx]
  | cons c rest ih =>
    rw [List.cons_append, List.takeWhile_cons, h c (by simp)]
    simp only [if_true, List.cons.injEq, true_and]
    exact ih (fun y hy => h y (by simp [hy]))

theorem dropWhile_append_stop {p : Char → Bool} {l r : List Char} {x : Char}
    (h : ∀ c ∈ l, p c = true) (hx : p x = false) :
    (l ++ x :: r).dropWhile p = x :: r := by
  induction l with
  | nil => simp [List.dropWhile_cons, hx]
  | cons c rest ih =>
    rw [List.cons_append, List.dropWhile_cons, h c (by simp)]
    simp only [if_true]
    exact ih (fun y hy => h y (by simp [hy]))

theorem mem_dropWhile_of_mem {p : Char → Bool} {l : List Char} {c : Char}
    (hm : c ∈ l) (hc : p c = false) : c ∈ l.dropWhile p := by
  induction l with
  | nil => cases hm
  | cons a rest ih =>
    rw [List.dropWhile_cons]
    by_cases ha : p a = true
    · rw [ha]
      simp only [if_true]
      rcases List.mem_cons.mp hm with h | h
      · subst h
        rw [ha] at hc
        cases hc
      · exact ih h
    · simp only [Bool.not_eq_true] at ha
      rw [ha]
      simpa using hm

theorem mem_of_mem_dropWhile {p : Char → Bool} {l : List Char} {c : Char}
    (hm : c ∈ l.dropWhile p) : c ∈ l := by
  induction l with
  | nil => simp at hm
  | cons a rest ih =>
    rw [List.dropWhile_cons] at hm
    by_cases ha : p a = true
    · rw [ha] at hm
      simp only [if_true] at hm
      exact List.mem_cons_of_mem _ (ih hm)
    · simp only [Bool.not_eq_true] at ha
      rw [ha] at hm
      simpa using hm

theorem mem_of_mem_takeWhile {p : Char → Bool} {l : List Char} {c : Char}
    (hm : c ∈ l.takeWhile p) : c ∈ l := by
  induction l with
  | nil => simp at hm
  | cons a rest ih =>
    rw [List.takeWhile_cons] at hm
    by_cases ha : p a = true
    · rw [ha] at hm
      simp only [if_true] at hm
      rcases List.mem_cons.mp hm with h | h
      · simp [h]
      · exact List.mem_cons_of_mem _ (ih h)
    · simp only [Bool.not_eq_true] at ha
      rw [ha] at hm
      simp at hm

theorem prop_of_mem_takeWhile {p : Char → Bool} {l : List Char} {c : Char}
    (hm : c ∈ l.takeWhile p) : p c = true := by
  induction l with
  | nil => simp at hm
  | cons a rest ih =>
    rw [List.takeWhile_cons] at hm
    by_cases ha : p a = true
    · rw [ha] at hm
      simp only [if_true] at hm
      rcases List.mem_cons.mp hm with h | h
      · subst h; exact ha
      · exact ih h
    · simp only [Bool.not_eq_true] at ha
      rw [ha] at hm
      simp at hm

/-! ### `pyStrip` and `pyFind` -/

theorem pyStrip_eq_self_of {l : List Char}
    (h : ∀ c ∈ l, isPySpace c = false) : pyStrip l = l := by
  unfold pyStrip
  rw [dropWhile_eq_self_of h, dropWhile_eq_self_of (fun c hc => h c (by simpa using hc)),
    List.reverse_reverse]

theorem mem_of_mem_pyStrip {l : List Char} {c : Char}
    (hm : c ∈ pyStrip l) : c ∈ l := by
  unfold pyStrip at hm
  rw [List.mem_reverse] at hm
  have h1 := mem_of_mem_dropWhile hm
  rw [List.mem_reverse] at h1
  exact mem_of_mem_dropWhile h1

theorem mem_pyStrip_of_mem {l : List Char} {c : Char}
    (hm : c ∈ l) (hc : isPySpace c = false) : c ∈ pyStrip l := by
  unfold pyStrip
  rw [List.mem_reverse]
  exact mem_dropWhile_of_mem (by rw [List.mem_reverse]; exact mem_dropWhile_of_mem hm hc) hc

theorem pyFind_cons_self {x : Char} {l : List Char} : pyFind x (x :: l) = 0 := by
  simp [pyFind]

theorem pyFind_append_of_not_mem {x : Char} {a l : List Char}
    (h : x ∉ a) : pyFind x (a ++ l) = a.length + pyFind x l := by
  induction a with
  | nil => simp
  | cons c rest ih =>
    have hc : c ≠ x := fun hh => h (by simp [hh])
    rw [List.cons_append]
    simp only [pyFind, if_neg hc, List.length_cons]
    rw [ih (fun hh => h (List.mem_cons_of_mem _ hh))]
    omega

/-! ### The `float` model: sign, non-negativity, digit strings, failure -/

theorem expDigits_nonneg {m : ℚ} {sg : ℤ} {t : List Char} {q : ℚ}
    (hm : 0 ≤ m) (h : expDigits m sg t = some q) : 0 ≤ q := by
  by_cases h1 : t.takeWhile Char.isDigit = []
  · simp [expDigits, h1] at h
  · by_cases h2 : t.dropWhile Char.isDigit = []
    · simp only [expDigits, if_neg h1, if_pos h2, Option.some.injEq] at h
      rw [← h]
      positivity
    · simp [expDigits, h1, h2] at h

theorem expTail_nonneg {m : ℚ} {r : List Char} {q : ℚ}
    (hm : 0 ≤ m) (h : expTail m r = some q) : 0 ≤ q := by
  unfold expTail at h
  split at h <;> exact expDigits_nonneg hm h

theorem expPart_nonneg {m : ℚ} {r : List Char} {q : ℚ}
    (hm : 0 ≤ m) (h : expPart m r = some q) : 0 ≤ q := by
  unfold expPart at h
  split at h
  · rw [Option.some.injEq] at h
    subst h
    exact hm
  · exact expTail_nonneg hm h
  · exact expTail_nonneg hm h
  · cases h

theorem numPart_nonneg {cs : List Char} {q : ℚ}
    (h : numPart cs = some q) : 0 ≤ q := by
  simp only [numPart] at h
  split at h
  · split at h
    · cases h
    · exact expPart_nonneg (by positivity) h
  · split at h
    · cases h
    · exact expPart_nonneg (by positivity) h

theorem pyFloatSigned_nonneg {cs : List Char} {q : ℚ}
    (hn : '-' ∉ cs) (h : pyFloatSigned cs = some q) : 0 ≤ q := by
  unfold pyFloatSigned at h
  split at h
  · exact numPart_nonneg h
  · exact absurd (by simp : '-' ∈ '-' :: _) hn
  · exact numPart_nonneg h

theorem pyFloat_nonneg {cs : List Char} {q : ℚ}
    (hn : '-' ∉ cs) (h : pyFloat cs = some q) : 0 ≤ q :=
  pyFloatSigned_nonneg (fun hm => hn (mem_of_mem_pyStrip hm)) h

theorem ne_of_digit_of_not_digit {c x : Char} (hd : c.isDigit = true)
    (hx : x.isDigit = false) : c ≠ x := by
  rintro rfl
  rw [hd] at hx
  cases hx

theorem isPySpace_eq_false_of_digit {c : Char} (hd : c.isDigit = true) :
    isPySpace c = false := by
  by_contra hs
  simp only [Bool.not_eq_false, isPySpace, Bool.or_eq_true, decide_eq_true_eq] at hs
  rcases hs with ((((h | h) | h) | h) | h) | h <;> subst h <;> cases hd

theorem expDigits_none_of_mem {m : ℚ} {sg : ℤ} {t : List Char} {c : Char}
    (hc : c.isDigit = false) (hm : c ∈ t) : expDigits m sg t = none := by
  have hr : c ∈ t.dropWhile Char.isDigit := mem_dropWhile_of_mem hm hc
  by_cases h1 : t.takeWhile Char.isDigit = []
  · simp [expDigits, h1]
  · simp [expDigits, h1, List.ne_nil_of_mem hr]

theorem expTail_none_of_mem {m : ℚ} {r : List Char} {c : Char}
    (hc : c.isDigit = false) (hp : c ≠ '+') (hn : c ≠ '-') (hm : c ∈ r) :
    expTail m r = none := by
  unfold expTail
  split
  · rename_i t
    rcases List.mem_cons.mp hm with h | h
    · exact absurd h hp
    · exact expDigits_none_of_mem hc h
  · rename_i t
    rcases List.mem_cons.mp hm with h | h
    · exact absurd h hn
    · exact expDigits_none_of_mem hc h
  · exact expDigits_none_of_mem hc hm

theorem expPart_none_of_mem {m : ℚ} {r : List Char} {c : Char}
    (hc : c.isDigit = false) (hp : c ≠ '+') (hn : c ≠ '-')
    (he : c ≠ 'e') (hE : c ≠ 'E') (hm : c ∈ r) :
    expPart m r = none := by
  unfold expPart
  split
  · simp at hm
  · rename_i t
    rcases List.mem_cons.mp hm with h | h
    · exact absurd h he
    · exact expTail_none_of_mem hc hp hn h
  · rename_i t
    rcases List.mem_cons.mp hm with h | h
    · exact absurd h hE
    · exact expTail_none_of_mem hc hp hn h
  · rfl

theorem numPart_none_of_mem {cs : List Char} {c : Char}
    (hc : c.isDigit = false) (hp : c ≠ '+') (hn : c ≠ '-') (hdot : c ≠ '.')
    (he : c ≠ 'e') (hE : c ≠ 'E') (hm : c ∈ cs) :
    numPart cs = none := by
  have hr : c ∈ cs.dropWhile Char.isDigit := mem_dropWhile_of_mem hm hc
  simp only [numPart]
  split
  · rename_i r2 heq
    rw [heq] at hr
    rcases List.mem_cons.mp hr with h | h
    · exact absurd h hdot
    · have hr3 : c ∈ r2.dropWhile Char.isDigit := mem_dropWhile_of_mem h hc
      split
      · rfl
      · exact expPart_none_of_mem hc hp hn he hE hr3
  · split
    · rfl
    · exact expPart_none_of_mem hc hp hn he hE hr

theorem pyFloatSigned_none_of_mem {cs : List Char} {c : Char}
    (hc : c.isDigit = false) (hp : c ≠ '+') (hn : c ≠ '-') (hdot : c ≠ '.')
    (he : c ≠ 'e') (hE : c ≠ 'E') (hm : c ∈ cs) :
    pyFloatSigned cs = none := by
  unfold pyFloatSigned
  split
  · rename_i r
    rcases List.mem_cons.mp hm with h | h
    · exact absurd h hp
    · exact numPart_none_of_mem hc hp hn hdot he hE h
  · rename_i r
    rcases List.mem_cons.mp hm with h | h
    · exact absurd h hn
    · rw [numPart_none_of_mem hc hp hn hdot he hE h]
      rfl
  · exact numPart_none_of_mem hc hp hn hdot he hE hm

theorem pyFloat_none_of_mem {cs : List Char} {c : Char}
    (hc : c.isDigit = false) (hp : c ≠ '+') (hn : c ≠ '-') (hdot : c ≠ '.')
    (he : c ≠ 'e') (hE : c ≠ 'E') (hs : isPySpace c = false) (hm : c ∈ cs) :
    pyFloat cs = none :=
  pyFloatSigned_none_of_mem hc hp hn hdot he hE (mem_pyStrip_of_mem hm hs)

theorem numPart_digits {ds : List Char} (hne : ds ≠ [])
    (hd : ∀ c ∈ ds, c.isDigit = true) :
    numPart ds = some (digitsVal ds) := by
  simp only [numPart]
  rw [takeWhile_eq_self_of hd, dropWhile_eq_nil_of hd]
  simp [hne, expPart]

theorem numPart_digits_dot {ds fs : List Char} (hne : ds ≠ [])
    (hd : ∀ c ∈ ds, c.isDigit = true) (hf : ∀ c ∈ fs, c.isDigit = true) :
    numPart (ds ++ '.' :: fs) =
      some ((digitsVal ds : ℚ) + (digitsVal fs : ℚ) / (10 : ℚ) ^ fs.length) := by
  simp only [numPart]
  rw [takeWhile_append_stop hd (by decide), dropWhile_append_stop hd (by decide)]
  simp [hne, takeWhile_eq_self_of hf, dropWhile_eq_nil_of hf, expPart]

theorem pyFloatSigned_eq_numPart {d : Char} {r : List Char}
    (hp : d ≠ '+') (hn : d ≠ '-') :
    pyFloatSigned (d :: r) = numPart (d :: r) := by
  unfold pyFloatSigned
  split
  · rename_i heq
    rw [List.cons.injEq] at heq
    exact absurd heq.1 hp
  · rename_i heq
    rw [List.cons.injEq] at heq
    exact absurd heq.1 hn
  · rfl

theorem pyFloat_digits {ds : List Char} (hne : ds ≠ [])
    (hd : ∀ c ∈ ds, c.isDigit = true) :
    pyFloat ds = some (digitsVal ds) := by
  unfold pyFloat
  rw [pyStrip_eq_self_of (fun c hc => isPySpace_eq_false_of_digit (hd c hc))]
  obtain ⟨d, ds', rfl⟩ := List.exists_cons_of_ne_nil hne
  have hdd := hd d (by simp)
  rw [pyFloatSigned_eq_numPart (ne_of_digit_of_not_digit hdd (by decide))
    (ne_of_digit_of_not_digit hdd (by decide))]
  exact numPart_digits hne hd

theorem pyFloat_digits_dot {ds fs : List Char} (hne : ds ≠ [])
    (hd : ∀ c ∈ ds, c.isDigit = true) (hf : ∀ c ∈ fs, c.isDigit = true) :
    pyFloat (ds ++ '.' :: fs) =
      some ((digitsVal ds : ℚ) + (digitsVal fs : ℚ) / (10 : ℚ) ^ fs.length) := by
  unfold pyFloat
  rw [pyStrip_eq_self_of ?allns]
  case allns =>
    intro c hc
    rcases List.mem_append.mp hc with h | h
    · exact isPySpace_eq_false_of_digit (hd c h)
    · rcases List.mem_cons.mp h with h2 | h2
      · subst h2; decide
      · exact isPySpace_eq_false_of_digit (hf c h2)
  obtain ⟨d, ds', rfl⟩ := List.exists_cons_of_ne_nil hne
  have hdd := hd d (by simp)
  rw [List.cons_append,
    pyFloatSigned_eq_numPart (ne_of_digit_of_not_digit hdd (by decide))
      (ne_of_digit_of_not_digit hdd (by decide)),
    ← List.cons_append]
  exact numPart_digits_dot hne hd hf

/-! ### Currency-marker stripping -/

/-- Characters that no currency-marker match can consume: anything other
than the code letters, the symbols and whitespace. -/
def survivesSub (c : Char) : Bool :=
  !(c = 'U' || c = 'S' || c = 'D' || c = 'E' || c = 'R' || c = 'G' ||
    c = 'B' || c = 'P' || isSym c || isPySpace c)

theorem subCur_nil {skip : Bool} : subCur skip [] = [] := by simp [subCur]

theorem subCur_one_sym {skip : Bool} {c1 : Char} (h : isSym c1 = true) :
    subCur skip [c1] = [] := by simp [subCur, h]

theorem subCur_one_keep {skip : Bool} {c1 : Char} (h1 : isSym c1 = false)
    (h2 : (skip && isPySpace c1) = false) : subCur skip [c1] = [c1] := by
  simp [subCur, h1, h2]

theorem subCur_two_keep {skip : Bool} {c1 c2 : Char} (h1 : isSym c1 = false)
    (h2 : (skip && isPySpace c1) = false) :
    subCur skip [c1, c2] = c1 :: subCur false [c2] := by
  simp [subCur, h1, h2]

theorem subCur_code {skip : Bool} {c1 c2 c3 : Char} {t : List Char}
    (h : isCode c1 c2 c3 = true) :
    subCur skip (c1 :: c2 :: c3 :: t) = subCur true t := by
  simp [subCur, h]

theorem subCur_sym3 {skip : Bool} {c1 c2 c3 : Char} {t : List Char}
    (h0 : isCode c1 c2 c3 = false) (h1 : isSym c1 = true) :
    subCur skip (c1 :: c2 :: c3 :: t) = subCur true (c2 :: c3 :: t) := by
  simp [subCur, h0, h1]

theorem subCur_space3 {skip : Bool} {c1 c2 c3 : Char} {t : List Char}
    (h0 : isCode c1 c2 c3 = false) (h1 : isSym c1 = false)
    (h2 : (skip && isPySpace c1) = true) :
    subCur skip (c1 :: c2 :: c3 :: t) = subCur true (c2 :: c3 :: t) := by
  simp [subCur, h0, h1, h2]

theorem subCur_keep3 {skip : Bool} {c1 c2 c3 : Char} {t : List Char}
    (h0 : isCode c1 c2 c3 = false) (h1 : isSym c1 = false)
    (h2 : (skip && isPySpace c1) = false) :
    subCur skip (c1 :: c2 :: c3 :: t) = c1 :: subCur false (c2 :: c3 :: t) := by
  simp [subCur, h0, h1, h2]

theorem subCur_two_sym {skip : Bool} {c1 c2 : Char} (h : isSym c1 = true) :
    subCur skip [c1, c2] = subCur true [c2] := by simp [subCur, h]

theorem subCur_two_space {skip : Bool} {c1 c2 : Char} (h1 : isSym c1 = false)
    (h2 : (skip && isPySpace c1) = true) : subCur skip [c1, c2] = subCur true [c2] := by
  simp [subCur, h1, h2]

theorem subCur_one_space {skip : Bool} {c1 : Char} (h1 : isSym c1 = false)
    (h2 : (skip && isPySpace c1) = true) : subCur skip [c1] = [] := by
  simp [subCur, h1, h2]


theorem mem_of_mem_subCur {c : Char} :
    ∀ (skip : Bool) (l : List Char), c ∈ subCur skip l → c ∈ l
  | skip, [], h => by rw [subCur_nil] at h; cases h
  | skip, [c1], h => by
    by_cases h1 : isSym c1 = true
    · rw [subCur_one_sym h1] at h; cases h
    · rw [Bool.not_eq_true] at h1
      by_cases h2 : (skip && isPySpace c1) = true
      · rw [subCur_one_space h1 h2] at h; cases h
      · rw [Bool.not_eq_true] at h2
        rw [subCur_one_keep h1 h2] at h
        exact h
  | skip, [c1, c2], h => by
    by_cases h1 : isSym c1 = true
    · rw [subCur_two_sym h1] at h
      exact List.mem_cons_of_mem _ (mem_of_mem_subCur true [c2] h)
    · rw [Bool.not_eq_true] at h1
      by_cases h2 : (skip && isPySpace c1) = true
      · rw [subCur_two_space h1 h2] at h
        exact List.mem_cons_of_mem _ (mem_of_mem_subCur true [c2] h)
      · rw [Bool.not_eq_true] at h2
        rw [subCur_two_keep h1 h2] at h
        rcases List.mem_cons.mp h with h3 | h3
        · simp [h3]
        · exact List.mem_cons_of_mem _ (mem_of_mem_subCur false [c2] h3)
  | skip, c1 :: c2 :: c3 :: t, h => by
    by_cases h0 : isCode c1 c2 c3 = true
    · rw [subCur_code h0] at h
      exact List.mem_cons_of_mem _ (List.mem_cons_of_mem _
        (List.mem_cons_of_mem _ (mem_of_mem_subCur true t h)))
    · rw [Bool.not_eq_true] at h0
      by_cases h1 : isSym c1 = true
      · rw [subCur_sym3 h0 h1] at h
        exact List.mem_cons_of_mem _ (mem_of_mem_subCur true (c2 :: c3 :: t) h)
      · rw [Bool.not_eq_true] at h1
        by_cases h2 : (skip && isPySpace c1) = true
        · rw [subCur_space3 h0 h1 h2] at h
          exact List.mem_cons_of_mem _ (mem_of_mem_subCur true (c2 :: c3 :: t) h)
        · rw [Bool.not_eq_true] at h2
          rw [subCur_keep3 h0 h1 h2] at h
          rcases List.mem_cons.mp h with h3 | h3
          · simp [h3]
          · exact List.mem_cons_of_mem _ (mem_of_mem_subCur false (c2 :: c3 :: t) h3)

theorem markerFree_of_cons {x : Char} {r : List Char}
    (h : markerFree (x :: r)) : markerFree r := by
  intro i hi
  have := h (i + 1) (by simp; omega)
  simpa [List.drop_succ_cons] using this

theorem subCur_eq_self_of_markerFree :
    ∀ (l : List Char), markerFree l → subCur false l = l
  | [], _ => subCur_nil
  | [c1], h => by
    have h0 := h 0 (by simp)
    simp only [List.drop_zero] at h0
    have hsym : isSym c1 = false := by simpa [isMarkerAt] using h0
    rw [subCur_one_keep hsym (by simp)]
  | [c1, c2], h => by
    have h0 := h 0 (by simp)
    simp only [List.drop_zero] at h0
    have hsym : isSym c1 = false := by simpa [isMarkerAt] using h0
    rw [subCur_two_keep hsym (by simp),
      subCur_eq_self_of_markerFree [c2] (markerFree_of_cons h)]
  | c1 :: c2 :: c3 :: t, h => by
    have h0 := h 0 (by simp)
    simp only [List.drop_zero] at h0
    have h0' : isCode c1 c2 c3 = false ∧ isSym c1 = false := by
      simpa [isMarkerAt, Bool.or_eq_false_iff] using h0
    rw [subCur_keep3 h0'.1 h0'.2 (by simp),
      subCur_eq_self_of_markerFree (c2 :: c3 :: t) (markerFree_of_cons h)]

theorem survivesSub_facts {c : Char} (hs : survivesSub c = true) :
    c ≠ 'U' ∧ c ≠ 'S' ∧ c ≠ 'D' ∧ c ≠ 'E' ∧ c ≠ 'R' ∧ c ≠ 'G' ∧
      c ≠ 'B' ∧ c ≠ 'P' ∧ isSym c = false ∧ isPySpace c = false := by
  simp only [survivesSub, Bool.not_eq_true', Bool.or_eq_false_iff,
    decide_eq_false_iff_not] at hs
  exact ⟨hs.1.1.1.1.1.1.1.1.1, hs.1.1.1.1.1.1.1.1.2, hs.1.1.1.1.1.1.1.2,
    hs.1.1.1.1.1.1.2, hs.1.1.1.1.1.2, hs.1.1.1.1.2, hs.1.1.1.2, hs.1.1.2,
    hs.1.2, hs.2⟩

theorem isCode_chars {c1 c2 c3 : Char} (h : isCode c1 c2 c3 = true) :
    ((c1 = 'U' ∧ c2 = 'S') ∧ c3 = 'D') ∨ ((c1 = 'E' ∧ c2 = 'U') ∧ c3 = 'R') ∨
      ((c1 = 'G' ∧ c2 = 'B') ∧ c3 = 'P') := by
  simpa only [isCode, Bool.or_eq_true, Bool.and_eq_true, decide_eq_true_eq,
    or_assoc] using h

theorem mem_subCur_of_mem {c : Char} (hs : survivesSub c = true) :
    ∀ (skip : Bool) (l : List Char), c ∈ l → c ∈ subCur skip l
  | skip, [], h => by cases h
  | skip, [c1], h => by
    obtain ⟨hU, hS, hD, hE, hR, hG, hB, hP, hsym, hsp⟩ := survivesSub_facts hs
    have hc1 : c = c1 := by simpa using h
    subst hc1
    rw [subCur_one_keep hsym (by rw [hsp, Bool.and_false])]
    exact h
  | skip, [c1, c2], h => by
    obtain ⟨hU, hS, hD, hE, hR, hG, hB, hP, hsym, hsp⟩ := survivesSub_facts hs
    by_cases h1 : isSym c1 = true
    · rw [subCur_two_sym h1]
      refine mem_subCur_of_mem hs true [c2] ?ha
      rcases List.mem_cons.mp h with h2 | h2
      · subst h2; rw [h1] at hsym; cases hsym
      · exact h2
    · rw [Bool.not_eq_true] at h1
      by_cases h2 : (skip && isPySpace c1) = true
      · rw [subCur_two_space h1 h2]
        refine mem_subCur_of_mem hs true [c2] ?hb
        rcases List.mem_cons.mp h with h3 | h3
        · subst h3
          rw [Bool.and_eq_true] at h2
          rw [h2.2] at hsp; cases hsp
        · exact h3
      · rw [Bool.not_eq_true] at h2
        rw [subCur_two_keep h1 h2]
        rcases List.mem_cons.mp h with h3 | h3
        · simp [h3]
        · exact List.mem_cons_of_mem _ (mem_subCur_of_mem hs false [c2] h3)
  | skip, c1 :: c2 :: c3 :: t, h => by
    obtain ⟨hU, hS, hD, hE, hR, hG, hB, hP, hsym, hsp⟩ := survivesSub_facts hs
    by_cases h0 : isCode c1 c2 c3 = true
    · rw [subCur_code h0]
      refine mem_subCur_of_mem hs true t ?hc
      rcases List.mem_cons.mp h with h2 | h2
      · rcases isCode_chars h0 with ⟨⟨a, _⟩, _⟩ | ⟨⟨a, _⟩, _⟩ | ⟨⟨a, _⟩, _⟩ <;>
          subst a <;> first
          | exact absurd h2 hU
          | exact absurd h2 hE
          | exact absurd h2 hG
      · rcases List.mem_cons.mp h2 with h3 | h3
        · rcases isCode_chars h0 with ⟨⟨_, a⟩, _⟩ | ⟨⟨_, a⟩, _⟩ | ⟨⟨_, a⟩, _⟩ <;>
            subst a <;> first
            | exact absurd h3 hS
            | exact absurd h3 hU
            | exact absurd h3 hB
        · rcases List.mem_cons.mp h3 with h4 | h4
          · rcases isCode_chars h0 with ⟨_, a⟩ | ⟨_, a⟩ | ⟨_, a⟩ <;>
              subst a <;> first
              | exact absurd h4 hD
              | exact absurd h4 hR
              | exact absurd h4 hP
          · exact h4
    · rw [Bool.not_eq_true] at h0
      by_cases h1 : isSym c1 = true
      · rw [subCur_sym3 h0 h1]
        refine mem_subCur_of_mem hs true (c2 :: c3 :: t) ?hd
        rcases List.mem_cons.mp h with h2 | h2
        · subst h2; rw [h1] at hsym; cases hsym
        · exact h2
      · rw [Bool.not_eq_true] at h1
        by_cases h2 : (skip && isPySpace c1) = true
        · rw [subCur_space3 h0 h1 h2]
          refine mem_subCur_of_mem hs true (c2 :: c3 :: t) ?hf
          rcases List.mem_cons.mp h with h3 | h3
          · subst h3
            rw [Bool.and_eq_true] at h2
            rw [h2.2] at hsp; cases hsp
          · exact h3
        · rw [Bool.not_eq_true] at h2
          rw [subCur_keep3 h0 h1 h2]
          rcases List.mem_cons.mp h with h3 | h3
          · simp [h3]
          · exact List.mem_cons_of_mem _ (mem_subCur_of_mem hs false (c2 :: c3 :: t) h3)

/-! ### Separator disambiguation -/

theorem filter_eq_self_of_all {p : Char → Bool} {l : List Char}
    (h : ∀ x ∈ l, p x = true) : l.filter p = l := by
  induction l with
  | nil => rfl
  | cons a rest ih =>
    rw [List.filter_cons, if_pos (h a (by simp))]
    rw [ih (fun x hx => h x (by simp [hx]))]

theorem map_eq_self_of_all {f : Char → Char} {l : List Char}
    (h : ∀ x ∈ l, f x = x) : l.map f = l := by
  induction l with
  | nil => rfl
  | cons a rest ih =>
    rw [List.map_cons, h a (by simp), ih (fun x hx => h x (by simp [hx]))]

theorem mem_disambiguateSeparators {c : Char} {t : List Char}
    (h : c ∈ disambiguateSeparators t) : c ∈ t ∨ c = '.' := by
  unfold disambiguateSeparators at h
  split at h
  · split at h
    · rcases List.mem_map.mp h with ⟨x, hx, hfx⟩
      by_cases hx2 : x = ','
      · right
        rw [if_pos hx2] at hfx
        exact hfx.symm
      · left
        rw [if_neg hx2] at hfx
        subst hfx
        exact List.mem_of_mem_filter hx
    · exact Or.inl (List.mem_of_mem_filter h)
  · split at h
    · exact Or.inl (List.mem_of_mem_filter h)
    · exact Or.inl h

theorem mem_disambiguateSeparators_of_mem {c : Char} {t : List Char}
    (hdot : c ≠ '.') (hcom : c ≠ ',') (hm : c ∈ t) :
    c ∈ disambiguateSeparators t := by
  unfold disambiguateSeparators
  split
  · split
    · refine List.mem_map.mpr ⟨c, List.mem_filter.mpr ⟨hm, by simp [hdot]⟩, ?hf⟩
      rw [if_neg hcom]
    · exact List.mem_filter.mpr ⟨hm, by simp [hcom]⟩
  · split
    · exact List.mem_filter.mpr ⟨hm, by simp [hcom]⟩
    · exact hm

/-! ### `clean_amount` composites -/

theorem isSym_eq_false_of_digit {c : Char} (hd : c.isDigit = true) :
    isSym c = false := by
  by_contra hs
  simp only [Bool.not_eq_false, isSym, Bool.or_eq_true, decide_eq_true_eq] at hs
  rcases hs with (h | h) | h <;> subst h <;> cases hd

theorem isCode_eq_false_of {c1 c2 c3 : Char}
    (h1 : c1 ≠ 'U') (h2 : c1 ≠ 'E') (h3 : c1 ≠ 'G') :
    isCode c1 c2 c3 = false := by
  simp [isCode, h1, h2, h3]

theorem markerFree_of_chars {l : List Char}
    (h : ∀ x ∈ l, x ≠ 'U' ∧ x ≠ 'E' ∧ x ≠ 'G' ∧ isSym x = false) :
    markerFree l := by
  intro i hi
  rcases hd : l.drop i with _ | ⟨c1, rest⟩
  · rfl
  · have hc1 : c1 ∈ l := (List.drop_sublist i l).subset (by rw [hd]; simp)
    obtain ⟨hU, hE, hG, hsym⟩ := h c1 hc1
    rcases rest with _ | ⟨c2, rest2⟩
    · simpa [isMarkerAt] using hsym
    · rcases rest2 with _ | ⟨c3, rest3⟩
      · simpa [isMarkerAt] using hsym
      · simp [isMarkerAt, isCode_eq_false_of hU hE hG, hsym]

theorem clean_amount_none_of_paren {cs : List Char} (hm : '(' ∈ cs) :
    clean_amount cs = none := by
  unfold clean_amount
  rw [if_neg (List.ne_nil_of_mem hm)]
  have h1 : '(' ∈ pyStrip cs := mem_pyStrip_of_mem hm (by decide)
  have h2 : '(' ∈ subCurrency (pyStrip cs) :=
    mem_subCur_of_mem (by decide) false _ h1
  have h3 : '(' ∈ disambiguateSeparators (subCurrency (pyStrip cs)) :=
    mem_disambiguateSeparators_of_mem (by decide) (by decide) h2
  exact pyFloat_none_of_mem (by decide) (by decide) (by decide) (by decide)
    (by decide) (by decide) (by decide) h3

theorem clean_amount_nonneg_of_amountChars {cs : List Char}
    (h : ∀ x ∈ cs, isAmountChar x = true) :
    clean_amount cs = none ∨ ∃ q, clean_amount cs = some q ∧ 0 ≤ q := by
  by_cases hnil : cs = []
  · left
    simp [clean_amount, hnil]
  · have hminus : '-' ∉ disambiguateSeparators (subCurrency (pyStrip cs)) := by
      intro hmem
      rcases mem_disambiguateSeparators hmem with h1 | h1
      · have h2 : '-' ∈ pyStrip cs := mem_of_mem_subCur false _ h1
        have h3 : '-' ∈ cs := mem_of_mem_pyStrip h2
        have := h '-' h3
        simp [isAmountChar] at this
      · cases h1
    unfold clean_amount
    rw [if_neg hnil]
    rcases hp : pyFloat (disambiguateSeparators (subCurrency (pyStrip cs))) with _ | q
    · exact Or.inl rfl
    · exact Or.inr ⟨q, rfl, pyFloat_nonneg hminus hp⟩

theorem digit_bne_dot {x : Char} (hd : x.isDigit = true) : (x != '.') = true := by
  simpa using ne_of_digit_of_not_digit hd (by decide)

theorem digit_bne_comma {x : Char} (hd : x.isDigit = true) : (x != ',') = true := by
  simpa using ne_of_digit_of_not_digit hd (by decide)

theorem disamb_dot_comma {a b c : List Char}
    (hda : ∀ x ∈ a, x.isDigit = true) (hdb : ∀ x ∈ b, x.isDigit = true)
    (hdc : ∀ x ∈ c, x.isDigit = true) :
    disambiguateSeparators (a ++ '.' :: b ++ ',' :: c) = (a ++ b) ++ '.' :: c := by
  have hdot : '.' ∉ a := fun hx => by
    have := hda '.' hx
    cases this
  have hcomA : ',' ∉ a := fun hx => by
    have := hda ',' hx
    cases this
  have hcomB : ',' ∉ b := fun hx => by
    have := hdb ',' hx
    cases this
  have hfind : pyFind '.' (a ++ '.' :: b ++ ',' :: c) <
      pyFind ',' (a ++ '.' :: b ++ ',' :: c) := by
    rw [List.append_assoc, List.cons_append,
      pyFind_append_of_not_mem hdot, pyFind_append_of_not_mem hcomA,
      pyFind_cons_self]
    have h2 : pyFind ',' ('.' :: (b ++ ',' :: c)) = pyFind ',' (b ++ ',' :: c) + 1 := by
      simp [pyFind]
    rw [h2, pyFind_append_of_not_mem hcomB, pyFind_cons_self]
    omega
  have hfa : a.filter (fun x => x != '.') = a :=
    filter_eq_self_of_all (fun x hx => digit_bne_dot (hda x hx))
  have hfb : b.filter (fun x => x != '.') = b :=
    filter_eq_self_of_all (fun x hx => digit_bne_dot (hdb x hx))
  have hfc : c.filter (fun x => x != '.') = c :=
    filter_eq_self_of_all (fun x hx => digit_bne_dot (hdc x hx))
  have hma : a.map (fun x => if x = ',' then '.' else x) = a :=
    map_eq_self_of_all (fun x hx =>
      if_neg (ne_of_digit_of_not_digit (hda x hx) (by decide)))
  have hmb : b.map (fun x => if x = ',' then '.' else x) = b :=
    map_eq_self_of_all (fun x hx =>
      if_neg (ne_of_digit_of_not_digit (hdb x hx) (by decide)))
  have hmc : c.map (fun x => if x = ',' then '.' else x) = c :=
    map_eq_self_of_all (fun x hx =>
      if_neg (ne_of_digit_of_not_digit (hdc x hx) (by decide)))
  unfold disambiguateSeparators
  rw [if_pos ⟨by simp, by simp⟩, if_pos hfind]
  simp [List.filter_append, List.filter_cons, List.map_append, List.map_cons,
    hfa, hfb, hfc, hma, hmb, hmc]

theorem disamb_comma_dot {a b c : List Char}
    (hda : ∀ x ∈ a, x.isDigit = true) (hdb : ∀ x ∈ b, x.isDigit = true)
    (hdc : ∀ x ∈ c, x.isDigit = true) :
    disambiguateSeparators (a ++ ',' :: b ++ '.' :: c) = (a ++ b) ++ '.' :: c := by
  have hdotA : '.' ∉ a := fun hx => by
    have := hda '.' hx
    cases this
  have hdotB : '.' ∉ b := fun hx => by
    have := hdb '.' hx
    cases this
  have hcomA : ',' ∉ a := fun hx => by
    have := hda ',' hx
    cases this
  have hfind : ¬ (pyFind '.' (a ++ ',' :: b ++ '.' :: c) <
      pyFind ',' (a ++ ',' :: b ++ '.' :: c)) := by
    rw [List.append_assoc, List.cons_append,
      pyFind_append_of_not_mem hdotA, pyFind_append_of_not_mem hcomA,
      pyFind_cons_self]
    have h2 : pyFind '.' (',' :: (b ++ '.' :: c)) = pyFind '.' (b ++ '.' :: c) + 1 := by
      simp [pyFind]
    rw [h2, pyFind_append_of_not_mem hdotB, pyFind_cons_self]
    omega
  have hfa : a.filter (fun x => x != ',') = a :=
    filter_eq_self_of_all (fun x hx => digit_bne_comma (hda x hx))
  have hfb : b.filter (fun x => x != ',') = b :=
    filter_eq_self_of_all (fun x hx => digit_bne_comma (hdb x hx))
  have hfc : c.filter (fun x => x != ',') = c :=
    filter_eq_self_of_all (fun x hx => digit_bne_comma (hdc x hx))
  unfold disambiguateSeparators
  rw [if_pos ⟨by simp, by simp⟩, if_neg hfind]
  simp [List.filter_append, List.filter_cons, hfa, hfb, hfc]

theorem mem_grouped {x : Char} {a b c : List Char} {s1 s2 : Char}
    (hx : x ∈ a ++ s1 :: b ++ s2 :: c) :
    x ∈ a ∨ x = s1 ∨ x ∈ b ∨ x = s2 ∨ x ∈ c := by
  simp only [List.mem_append, List.mem_cons] at hx
  tauto

theorem clean_amount_dot_comma {a b c : List Char} (ha : a ≠ [])
    (hda : ∀ x ∈ a, x.isDigit = true) (hdb : ∀ x ∈ b, x.isDigit = true)
    (hdc : ∀ x ∈ c, x.isDigit = true) :
    clean_amount (a ++ '.' :: b ++ ',' :: c) =
      some ((digitsVal (a ++ b) : ℚ) + (digitsVal c : ℚ) / (10 : ℚ) ^ c.length) := by
  have hns : ∀ x ∈ a ++ '.' :: b ++ ',' :: c, isPySpace x = false := by
    intro x hx
    rcases mem_grouped hx with h | h | h | h | h
    · exact isPySpace_eq_false_of_digit (hda x h)
    · subst h; decide
    · exact isPySpace_eq_false_of_digit (hdb x h)
    · subst h; decide
    · exact isPySpace_eq_false_of_digit (hdc x h)
  have hmf : markerFree (a ++ '.' :: b ++ ',' :: c) := by
    refine markerFree_of_chars ?hchars
    intro x hx
    rcases mem_grouped hx with h | h | h | h | h
    · exact ⟨ne_of_digit_of_not_digit (hda x h) (by decide),
        ne_of_digit_of_not_digit (hda x h) (by decide),
        ne_of_digit_of_not_digit (hda x h) (by decide),
        isSym_eq_false_of_digit (hda x h)⟩
    · subst h; exact ⟨by decide, by decide, by decide, by decide⟩
    · exact ⟨ne_of_digit_of_not_digit (hdb x h) (by decide),
        ne_of_digit_of_not_digit (hdb x h) (by decide),
        ne_of_digit_of_not_digit (hdb x h) (by decide),
        isSym_eq_false_of_digit (hdb x h)⟩
    · subst h; exact ⟨by decide, by decide, by decide, by decide⟩
    · exact ⟨ne_of_digit_of_not_digit (hdc x h) (by decide),
        ne_of_digit_of_not_digit (hdc x h) (by decide),
        ne_of_digit_of_not_digit (hdc x h) (by decide),
        isSym_eq_false_of_digit (hdc x h)⟩
  have hsub : subCurrency (a ++ '.' :: b ++ ',' :: c) = a ++ '.' :: b ++ ',' :: c :=
    subCur_eq_self_of_markerFree _ hmf
  unfold clean_amount
  rw [if_neg (by simp), pyStrip_eq_self_of hns, hsub, disamb_dot_comma hda hdb hdc]
  refine pyFloat_digits_dot (by simp [ha]) ?hd hdc
  intro x hx
  rcases List.mem_append.mp hx with h | h
  · exact hda x h
  · exact hdb x h

theorem clean_amount_comma_dot {a b c : List Char} (ha : a ≠ [])
    (hda : ∀ x ∈ a, x.isDigit = true) (hdb : ∀ x ∈ b, x.isDigit = true)
    (hdc : ∀ x ∈ c, x.isDigit = true) :
    clean_amount (a ++ ',' :: b ++ '.' :: c) =
      some ((digitsVal (a ++ b) : ℚ) + (digitsVal c : ℚ) / (10 : ℚ) ^ c.length) := by
  have hns : ∀ x ∈ a ++ ',' :: b ++ '.' :: c, isPySpace x = false := by
    intro x hx
    rcases mem_grouped hx with h | h | h | h | h
    · exact isPySpace_eq_false_of_digit (hda x h)
    · subst h; decide
    · exact isPySpace_eq_false_of_digit (hdb x h)
    · subst h; decide
    · exact isPySpace_eq_false_of_digit (hdc x h)
  have hmf : markerFree (a ++ ',' :: b ++ '.' :: c) := by
    refine markerFree_of_chars ?hchars
    intro x hx
    rcases mem_grouped hx with h | h | h | h | h
    · exact ⟨ne_of_digit_of_not_digit (hda x h) (by decide),
        ne_of_digit_of_not_digit (hda x h) (by decide),
        ne_of_digit_of_not_digit (hda x h) (by decide),
        isSym_eq_false_of_digit (hda x h)⟩
    · subst h; exact ⟨by decide, by decide, by decide, by decide⟩
    · exact ⟨ne_of_digit_of_not_digit (hdb x h) (by decide),
        ne_of_digit_of_not_digit (hdb x h) (by decide),
        ne_of_digit_of_not_digit (hdb x h) (by decide),
        isSym_eq_false_of_digit (hdb x h)⟩
    · subst h; exact ⟨by decide, by decide, by decide, by decide⟩
    · exact ⟨ne_of_digit_of_not_digit (hdc x h) (by decide),
        ne_of_digit_of_not_digit (hdc x h) (by decide),
        ne_of_digit_of_not_digit (hdc x h) (by decide),
        isSym_eq_false_of_digit (hdc x h)⟩
  have hsub : subCurrency (a ++ ',' :: b ++ '.' :: c) = a ++ ',' :: b ++ '.' :: c :=
    subCur_eq_self_of_markerFree _ hmf
  unfold clean_amount
  rw [if_neg (by simp), pyStrip_eq_self_of hns, hsub, disamb_comma_dot hda hdb hdc]
  refine pyFloat_digits_dot (by simp [ha]) ?hd hdc
  intro x hx
  rcases List.mem_append.mp hx with h | h
  · exact hda x h
  · exact hdb x h

/-! ### Field locator -/

theorem orElse_eq_some_elim {α : Type} {x y : Option α} {v : α}
    (h : (x <|> y) = some v) : x = some v ∨ y = some v := by
  cases x with
  | none => right; simpa [Option.orElse] using h
  | some w => left; simpa [Option.orElse] using h

theorem tryAmountCap_chars {r cap : List Char} (h : tryAmountCap r = some cap) :
    ∀ c ∈ cap, isAmountChar c = true := by
  simp only [tryAmountCap] at h
  split at h
  · cases h
  · rw [Option.some.injEq] at h
    subst h
    exact fun c hc => prop_of_mem_takeWhile hc

theorem matchAmountAfterLabel_chars {cs cap : List Char}
    (h : matchAmountAfterLabel cs = some cap) : ∀ c ∈ cap, isAmountChar c = true := by
  unfold matchAmountAfterLabel at h
  split at h
  · rcases orElse_eq_some_elim h with h1 | h1
    · split at h1
      · exact tryAmountCap_chars h1
      · cases h1
    · rcases orElse_eq_some_elim h1 with h2 | h2
      · split at h2
        · exact tryAmountCap_chars h2
        · cases h2
      · rcases orElse_eq_some_elim h2 with h3 | h3
        · split at h3
          · exact tryAmountCap_chars h3
          · cases h3
        · exact tryAmountCap_chars h3
  · cases h

theorem searchField_prop {P : List Char → Prop} {label : List Char}
    {after : List Char → Option (List Char)}
    (hafter : ∀ cs cap, after cs = some cap → P cap) :
    ∀ (text cap : List Char), searchField label after text = some cap → P cap
  | [], cap, h => by
    unfold searchField at h
    split at h
    · exact hafter _ _ h
    · cases h
  | c :: rest, cap, h => by
    simp only [searchField] at h
    split at h
    · rename_i v heq
      rw [Option.some.injEq] at h
      subst h
      split at heq
      · exact hafter _ _ heq
      · cases heq
    · exact searchField_prop hafter rest cap h

theorem amountField_none_or_nonneg (label text : List Char) :
    amountField label text = none ∨
      ∃ q, amountField label text = some q ∧ 0 ≤ q := by
  unfold amountField
  cases hsearch : searchField label matchAmountAfterLabel text with
  | none => exact Or.inl rfl
  | some cap =>
    have hchars : ∀ c ∈ cap, isAmountChar c = true :=
      searchField_prop (fun cs cap2 h2 => matchAmountAfterLabel_chars h2) text cap hsearch
    simpa [Option.bind] using clean_amount_nonneg_of_amountChars hchars

theorem legalEntityField_chars {text v : List Char}
    (h : legalEntityField text = some v) :
    ∀ c ∈ v, (isWordChar c || c = '$') = true := by
  unfold legalEntityField at h
  cases hsearch : searchField ("Custom 10-Legal Entity".data) matchLegalAfterLabel text with
  | none => rw [hsearch] at h; cases h
  | some cap =>
    rw [hsearch, Option.map_some'] at h
    rw [Option.some.injEq] at h
    subst h
    intro c hc
    exact (List.mem_filter.mp hc).2

/-! ### Batch loop and combined text -/

theorem combinedText_acc (pages : List (List Char)) :
    ∀ acc : List Char,
      pages.foldl (fun acc p => acc ++ p ++ ['\n']) acc = acc ++ combinedText pages := by
  induction pages with
  | nil => intro acc; simp [combinedText]
  | cons p ps ih =>
    intro acc
    have h1 : combinedText (p :: ps) = (p ++ ['\n']) ++ combinedText ps := by
      unfold combinedText
      rw [List.foldl_cons, ih ([] ++ p ++ ['\n']), List.nil_append]
      rfl
    rw [List.foldl_cons, ih (acc ++ p ++ ['\n']), h1]
    simp [List.append_assoc]

theorem combinedText_contains {p : List Char} :
    ∀ {pages : List (List Char)}, p ∈ pages →
      ∃ l r, combinedText pages = l ++ p ++ r := by
  intro pages
  induction pages with
  | nil => intro h; cases h
  | cons q ps ih =>
    intro h
    have h1 : combinedText (q :: ps) = (q ++ ['\n']) ++ combinedText ps := by
      unfold combinedText
      rw [List.foldl_cons, combinedText_acc ps ([] ++ q ++ ['\n']), List.nil_append]
      rfl
    rcases List.mem_cons.mp h with h2 | h2
    · subst h2
      exact ⟨[], '\n' :: combinedText ps, by simp [h1]⟩
    · rcases ih h2 with ⟨l, r, hr⟩
      exact ⟨q ++ '\n' :: l, r, by simp [h1, hr, List.append_assoc]⟩

theorem foldl_batchStep_acc (docs : List (List Char × Except (List Char) (List (List Char)))) :
    ∀ (r : List (List Char × ExpenseData)) (e : List (List Char × List Char)),
      docs.foldl batchStep (r, e) =
        (r ++ (processBatch docs).1, e ++ (processBatch docs).2) := by
  induction docs with
  | nil => intro r e; simp [processBatch]
  | cons d ds ih =>
    intro r e
    have hP : processBatch (d :: ds) = ds.foldl batchStep (batchStep ([], []) d) := by
      simp [processBatch]
    cases hd : d.2 with
    | ok pages =>
      have hstep : ∀ (r' : List (List Char × ExpenseData)) (e' : List (List Char × List Char)),
          batchStep (r', e') d =
            (r' ++ [(d.1, extract_expense_data (combinedText pages))], e') := by
        intro r' e'
        simp [batchStep, hd]
      rw [List.foldl_cons, hstep, ih, hP, hstep, ih]
      simp [List.append_assoc]
    | error err =>
      have hstep : ∀ (r' : List (List Char × ExpenseData)) (e' : List (List Char × List Char)),
          batchStep (r', e') d = (r', e' ++ [(d.1, err)]) := by
        intro r' e'
        simp [batchStep, hd]
      rw [List.foldl_cons, hstep, ih, hP, hstep, ih]
      simp [List.append_assoc]

theorem processBatch_skip_error
    (pre post : List (List Char × Except (List Char) (List (List Char))))
    (n e : List Char) :
    (processBatch (pre ++ ((n, Except.error e) :: post))).1 =
        (processBatch (pre ++ post)).1 ∧
      (processBatch (pre ++ ((n, Except.error e) :: post))).2 =
        (processBatch pre).2 ++ (n, e) :: (processBatch post).2 := by
  rcases hpre : processBatch pre with ⟨R, E⟩
  have hpre' : pre.foldl batchStep ([], []) = (R, E) := hpre
  have hbad : batchStep (R, E) (n, Except.error e) = (R, E ++ [(n, e)]) := by
    simp [batchStep]
  constructor
  · show (List.foldl batchStep ([], []) (pre ++ ((n, Except.error e) :: post))).1 = _
    rw [List.foldl_append, hpre', List.foldl_cons, hbad, foldl_batchStep_acc]
    show R ++ (processBatch post).1 =
      (List.foldl batchStep ([], []) (pre ++ post)).1
    rw [List.foldl_append, hpre', foldl_batchStep_acc]
  · show (List.foldl batchStep ([], []) (pre ++ ((n, Except.error e) :: post))).2 = _
    rw [List.foldl_append, hpre', List.foldl_cons, hbad, foldl_batchStep_acc]
    simp

theorem processBatch_all_ok :
    ∀ (docs : List (List Char × Except (List Char) (List (List Char)))),
      (∀ d ∈ docs, (d.2).isOk = true) →
        (processBatch docs).1.length = docs.length ∧ (processBatch docs).2 = [] := by
  intro docs
  induction docs with
  | nil => intro _; simp [processBatch]
  | cons d ds ih =>
    intro h
    obtain ⟨hlen, hnil⟩ := ih (fun x hx => h x (by simp [hx]))
    cases hd : d.2 with
    | error err =>
      have := h d (by simp)
      rw [hd] at this
      cases this
    | ok pages =>
      have hP : processBatch (d :: ds) =
          ([(d.1, extract_expense_data (combinedText pages))] ++ (processBatch ds).1,
            (processBatch ds).2) := by
        show List.foldl batchStep ([], []) (d :: ds) = _
        rw [List.foldl_cons]
        have hstep : batchStep ([], []) d =
            ([(d.1, extract_expense_data (combinedText pages))], []) := by
          simp [batchStep, hd]
        rw [hstep, foldl_batchStep_acc]
        simp
      rw [hP]
      simp [hlen, hnil]

/-! ### Evaluation helpers for concrete inputs -/

instance (l : List Char) : Decidable (markerFree l) := by
  unfold markerFree
  infer_instance

theorem pyFloatSigned_digits {ds : List Char} (hne : ds ≠ [])
    (hd : ∀ c ∈ ds, c.isDigit = true) :
    pyFloatSigned ds = some (digitsVal ds) := by
  obtain ⟨d, ds', rfl⟩ := List.exists_cons_of_ne_nil hne
  have hdd := hd d (by simp)
  rw [pyFloatSigned_eq_numPart (ne_of_digit_of_not_digit hdd (by decide))
    (ne_of_digit_of_not_digit hdd (by decide))]
  exact numPart_digits hne hd

theorem pyFloatSigned_digits_dot {ds fs : List Char} (hne : ds ≠ [])
    (hd : ∀ c ∈ ds, c.isDigit = true) (hf : ∀ c ∈ fs, c.isDigit = true) :
    pyFloatSigned (ds ++ '.' :: fs) =
      some ((digitsVal ds : ℚ) + (digitsVal fs : ℚ) / (10 : ℚ) ^ fs.length) := by
  obtain ⟨d, ds', rfl⟩ := List.exists_cons_of_ne_nil hne
  have hdd := hd d (by simp)
  rw [List.cons_append,
    pyFloatSigned_eq_numPart (ne_of_digit_of_not_digit hdd (by decide))
      (ne_of_digit_of_not_digit hdd (by decide)),
    ← List.cons_append]
  exact numPart_digits_dot hne hd hf

theorem clean_amount_eval_int {s : List Char} (ds : List Char) (hne : s ≠ [])
    (h : pyStrip (disambiguateSeparators (subCurrency (pyStrip s))) = ds)
    (hdne : ds ≠ []) (hd : ∀ c ∈ ds, c.isDigit = true) :
    clean_amount s = some (digitsVal ds) := by
  unfold clean_amount pyFloat
  rw [if_neg hne, h]
  exact pyFloatSigned_digits hdne hd

theorem clean_amount_eval_dot {s : List Char} (ds fs : List Char) (hne : s ≠ [])
    (h : pyStrip (disambiguateSeparators (subCurrency (pyStrip s))) = ds ++ '.' :: fs)
    (hdne : ds ≠ []) (hd : ∀ c ∈ ds, c.isDigit = true)
    (hf : ∀ c ∈ fs, c.isDigit = true) :
    clean_amount s =
      some ((digitsVal ds : ℚ) + (digitsVal fs : ℚ) / (10 : ℚ) ^ fs.length) := by
  unfold clean_amount pyFloat
  rw [if_neg hne, h]
  exact pyFloatSigned_digits_dot hdne hd hf

/-! ### Claims -/

/-- C1, counterexample: `clean_amount` does not implement the parenthesized
negative form: on `"(1,234.56)"` it returns `none` (absence), not
`-1234.56`. -/
theorem claim_C1_counterexample :
    clean_amount ("(1,234.56)".data) = none ∧
      clean_amount ("(1,234.56)".data) ≠ some (-(123456 / 100) : ℚ) := by
  have h : clean_amount ("(1,234.56)".data) = none := by decide
  exact ⟨h, by rw [h]; simp⟩

/-- C1, amended: `clean_amount` never strips parentheses; any input
containing `'('` (in particular any parenthesized amount) fails the final
`float` parse and yields absence, never a negative value. -/
theorem claim_C1 :
    (∀ s : List Char, '(' ∈ s → clean_amount s = none) ∧
      clean_amount ("(1,234.56)".data) = none :=
  ⟨fun _ hm => clean_amount_none_of_paren hm, by decide⟩

/-- C1 witness. -/
theorem claim_C1_witness : clean_amount ("(7)".data) = none :=
  claim_C1.1 ("(7)".data) (by decide)

/-- C2: with both separators present, the leftmost is treated as the
thousands separator (its occurrences deleted) and the other as the decimal
point: a grouped number `a<sep1>b<sep2>c` over digit segments parses as
`ab.c` in either separator order; in particular `"1.234,56"` and
`"1,234.56"` both normalize to `1234.56`. -/
theorem claim_C2 :
    (∀ a b c : List Char, a ≠ [] → b ≠ [] → c ≠ [] →
      (∀ x ∈ a, x.isDigit = true) → (∀ x ∈ b, x.isDigit = true) →
      (∀ x ∈ c, x.isDigit = true) →
      clean_amount (a ++ '.' :: b ++ ',' :: c) =
          some ((digitsVal (a ++ b) : ℚ) + (digitsVal c : ℚ) / (10 : ℚ) ^ c.length) ∧
        clean_amount (a ++ ',' :: b ++ '.' :: c) =
          some ((digitsVal (a ++ b) : ℚ) + (digitsVal c : ℚ) / (10 : ℚ) ^ c.length)) ∧
      clean_amount ("1.234,56".data) = some (123456 / 100 : ℚ) ∧
      clean_amount ("1,234.56".data) = some (123456 / 100 : ℚ) := by
  refine ⟨fun a b c ha _ _ hda hdb hdc =>
    ⟨clean_amount_dot_comma ha hda hdb hdc, clean_amount_comma_dot ha hda hdb hdc⟩,
    ?conc1, ?conc2⟩
  · rw [clean_amount_eval_dot ['1', '2', '3', '4'] ['5', '6']
      (by decide) (by decide) (by decide) (by decide) (by decide),
      show digitsVal ['1', '2', '3', '4'] = 1234 from by decide,
      show digitsVal ['5', '6'] = 56 from by decide,
      show (['5', '6'] : List Char).length = 2 from rfl]
    norm_num
  · rw [clean_amount_eval_dot ['1', '2', '3', '4'] ['5', '6']
      (by decide) (by decide) (by decide) (by decide) (by decide),
      show digitsVal ['1', '2', '3', '4'] = 1234 from by decide,
      show digitsVal ['5', '6'] = 56 from by decide,
      show (['5', '6'] : List Char).length = 2 from rfl]
    norm_num

/-- C2 witness. -/
theorem claim_C2_witness :
    clean_amount (['1'] ++ '.' :: ['2', '3', '4'] ++ ',' :: ['5', '6']) =
        some ((digitsVal (['1'] ++ ['2', '3', '4']) : ℚ) +
          (digitsVal ['5', '6'] : ℚ) / (10 : ℚ) ^ (['5', '6'] : List Char).length) ∧
      clean_amount (['1'] ++ ',' :: ['2', '3', '4'] ++ '.' :: ['5', '6']) =
        some ((digitsVal (['1'] ++ ['2', '3', '4']) : ℚ) +
          (digitsVal ['5', '6'] : ℚ) / (10 : ℚ) ^ (['5', '6'] : List Char).length) :=
  claim_C2.1 ['1'] ['2', '3', '4'] ['5', '6'] (by decide) (by decide) (by decide)
    (by decide) (by decide) (by decide)

theorem amount_found_on_page_three :
    (extract_expense_data (combinedText ["A".data, "B".data,
      "Amount Due Employee : 5".data])).amount_due_employee = some 5 := by
  show amountField ("Amount Due Employee".data)
    (combinedText ["A".data, "B".data, "Amount Due Employee : 5".data]) = some 5
  unfold amountField
  rw [show searchField ("Amount Due Employee".data) matchAmountAfterLabel
      (combinedText ["A".data, "B".data, "Amount Due Employee : 5".data]) =
      some ['5'] from by decide]
  show clean_amount ['5'] = some 5
  rw [clean_amount_eval_int ['5'] (by decide) (by decide) (by decide)
    (by decide), show digitsVal ['5'] = 5 from by decide]
  norm_num

/-- C3, counterexample: the extraction text is not bounded to the first two
pages: a field appearing only on the third page is still found, while the
two-page prefix alone yields nothing. -/
theorem claim_C3_counterexample :
    (extract_expense_data (combinedText ["A".data, "B".data,
        "Amount Due Employee : 5".data])).amount_due_employee = some 5 ∧
      (extract_expense_data (combinedText (["A".data, "B".data,
        "Amount Due Employee : 5".data].take 2))).amount_due_employee = none :=
  ⟨amount_found_on_page_three, by decide⟩

/-- C3, amended: `process_files` hands `extract_expense_data` the
concatenated text of every page of the document — the searched text
contains each page in full, with no two-page bound and no configuration
point; in particular a label on page three is located. -/
theorem claim_C3 :
    (∀ (pages : List (List Char)) (p : List Char), p ∈ pages →
        ∃ l r, combinedText pages = l ++ p ++ r) ∧
      (extract_expense_data (combinedText ["A".data, "B".data,
        "Amount Due Employee : 5".data])).amount_due_employee = some 5 :=
  ⟨fun _ _ hm => combinedText_contains hm, amount_found_on_page_three⟩

/-- C3 witness. -/
theorem claim_C3_witness :
    ∃ l r, combinedText ["A".data, "B".data, "Amount Due Employee : 5".data] =
      l ++ "Amount Due Employee : 5".data ++ r :=
  claim_C3.1 ["A".data, "B".data, "Amount Due Employee : 5".data]
    ("Amount Due Employee : 5".data) (by decide)

/-- C4: every substring captured by the amount-field regexes consists only
of characters from the class digits, comma, period, parentheses, minus
(the code's class `[\d,.]` is a subset of the claimed class, so the
containment holds a fortiori). -/
theorem claim_C4 :
    ∀ label text cap : List Char,
      searchField label matchAmountAfterLabel text = some cap →
      ∀ c ∈ cap, c.isDigit = true ∨ c = ',' ∨ c = '.' ∨ c = '(' ∨ c = ')' ∨ c = '-' := by
  intro label text cap h c hc
  have hch : isAmountChar c = true :=
    searchField_prop (fun _ _ h2 => matchAmountAfterLabel_chars h2) text cap h c hc
  simp only [isAmountChar, Bool.or_eq_true, decide_eq_true_eq] at hch
  tauto

/-- C4 witness. -/
theorem claim_C4_witness :
    searchField ("Amount Due Employee".data) matchAmountAfterLabel
        ("Amount Due Employee : 12.5".data) = some ("12.5".data) ∧
      ∀ c ∈ ("12.5".data),
        c.isDigit = true ∨ c = ',' ∨ c = '.' ∨ c = '(' ∨ c = ')' ∨ c = '-' :=
  ⟨by decide, claim_C4 ("Amount Due Employee".data) ("Amount Due Employee : 12.5".data)
    ("12.5".data) (by decide)⟩

/-- C5: with a comma but no period the commas are stripped as thousands
marks; with a period but no comma the string is left unchanged before
parsing — the asymmetric treatment; in particular `"1,234"` normalizes to
`1234` and `"1.234"` to `1.234`. -/
theorem claim_C5 :
    (∀ t : List Char, ',' ∈ t → '.' ∉ t →
        disambiguateSeparators t = t.filter (fun c => c != ',')) ∧
      (∀ t : List Char, '.' ∈ t → ',' ∉ t → disambiguateSeparators t = t) ∧
      clean_amount ("1,234".data) = some 1234 ∧
      clean_amount ("1.234".data) = some (1234 / 1000 : ℚ) := by
  refine ⟨fun t h1 h2 => ?only_comma, fun t h1 h2 => ?only_dot, ?conc1, ?conc2⟩
  · unfold disambiguateSeparators
    rw [if_neg (fun hand => h2 hand.2), if_pos h1]
  · unfold disambiguateSeparators
    rw [if_neg (fun hand => h2 hand.1), if_neg h2]
  · rw [clean_amount_eval_int ['1', '2', '3', '4'] (by decide) (by decide)
      (by decide) (by decide), show digitsVal ['1', '2', '3', '4'] = 1234 from by decide]
    norm_num
  · rw [clean_amount_eval_dot ['1'] ['2', '3', '4'] (by decide)
      (by decide) (by decide) (by decide) (by decide),
      show digitsVal ['1'] = 1 from by decide,
      show digitsVal ['2', '3', '4'] = 234 from by decide,
      show (['2', '3', '4'] : List Char).length = 3 from rfl]
    norm_num

/-- C5 witness. -/
theorem claim_C5_witness :
    disambiguateSeparators ("1,234".data) = ("1,234".data).filter (fun c => c != ',') ∧
      disambiguateSeparators ("1.234".data) = "1.234".data :=
  ⟨claim_C5.1 ("1,234".data) (by decide) (by decide),
    claim_C5.2.1 ("1.234".data) (by decide) (by decide)⟩

/-- C6: `clean_amount` is total — every input yields either a value or
absence, never an error — and the empty string, `"N/A"` and `"--"` all
yield absence. -/
theorem claim_C6 :
    clean_amount ("".data) = none ∧ clean_amount ("N/A".data) = none ∧
      clean_amount ("--".data) = none ∧
      ∀ s : List Char, clean_amount s = none ∨ ∃ q : ℚ, clean_amount s = some q := by
  refine ⟨by decide, by decide, by decide, fun s => ?tot⟩
  cases h : clean_amount s with
  | none => exact Or.inl rfl
  | some q => exact Or.inr ⟨q, rfl⟩

/-- C7, counterexample: the post-filter `[^\w$]` keeps underscores, so the
capture `"A_B"` is returned unchanged although `'_'` is neither
alphanumeric nor `'$'`. -/
theorem claim_C7_counterexample :
    (extract_expense_data ("Custom 10-Legal Entity : A_B".data)).legal_entity =
        some ("A_B".data) ∧
      '_' ∈ ("A_B".data) ∧ ('_'.isAlphanum = false) ∧ '_' ≠ '$' := by decide

/-- C7, amended: after capture the extractor strips every character that is
not a word character (alphanumeric or underscore) or `'$'`; the raw capture
`"ACME-Corp"` yields `"ACMECorp"`, and every returned `legal_entity` value
contains only word characters and `'$'`. -/
theorem claim_C7 :
    (∀ text v : List Char, legalEntityField text = some v →
        ∀ c ∈ v, c.isAlphanum = true ∨ c = '_' ∨ c = '$') ∧
      (extract_expense_data ("Custom 10-Legal Entity : ACME-Corp ".data)).legal_entity =
        some ("ACMECorp".data) := by
  constructor
  · intro text v h c hc
    have hw := legalEntityField_chars h c hc
    simp only [isWordChar, Bool.or_eq_true, decide_eq_true_eq] at hw
    tauto
  · decide

/-- C7 witness. -/
theorem claim_C7_witness :
    legalEntityField ("Custom 10-Legal Entity : ACME$1".data) = some ("ACME$1".data) ∧
      ∀ c ∈ ("ACME$1".data), c.isAlphanum = true ∨ c = '_' ∨ c = '$' :=
  ⟨by decide, claim_C7.1 ("Custom 10-Legal Entity : ACME$1".data) ("ACME$1".data)
    (by decide)⟩

theorem processBatch_append_fst
    (xs ys : List (List Char × Except (List Char) (List (List Char)))) :
    (processBatch (xs ++ ys)).1 = (processBatch xs).1 ++ (processBatch ys).1 := by
  show (List.foldl batchStep ([], []) (xs ++ ys)).1 = _
  rcases hxs : processBatch xs with ⟨R, E⟩
  have hxs' : List.foldl batchStep ([], []) xs = (R, E) := hxs
  rw [List.foldl_append, hxs', foldl_batchStep_acc]

/-- C8: a batch in which one document raises while all others succeed
yields exactly one diagnostic, for the failing document, and the same
records as the batch without it — every one of the other `N − 1` documents
still produces its record. -/
theorem claim_C8 :
    ∀ (pre post : List (List Char × Except (List Char) (List (List Char))))
      (n e : List Char),
      (∀ d ∈ pre, (d.2).isOk = true) → (∀ d ∈ post, (d.2).isOk = true) →
      (processBatch (pre ++ ((n, Except.error e) :: post))).1.length =
          pre.length + post.length ∧
        (processBatch (pre ++ ((n, Except.error e) :: post))).2 = [(n, e)] ∧
        (processBatch (pre ++ ((n, Except.error e) :: post))).1 =
          (processBatch (pre ++ post)).1 := by
  intro pre post n e hpre hpost
  obtain ⟨hskip1, hskip2⟩ := processBatch_skip_error pre post n e
  obtain ⟨hlen1, hnil1⟩ := processBatch_all_ok pre hpre
  obtain ⟨hlen2, hnil2⟩ := processBatch_all_ok post hpost
  refine ⟨?len, ?diag, hskip1⟩
  · rw [hskip1, processBatch_append_fst, List.length_append, hlen1, hlen2]
  · rw [hskip2, hnil1, hnil2]
    rfl

/-- C8 witness. -/
theorem claim_C8_witness :
    (processBatch [("a".data, (Except.ok [] : Except (List Char) (List (List Char)))),
        ("b".data, Except.error ("boom".data)), ("c".data, Except.ok [])]).1.length =
        1 + 1 ∧
      (processBatch [("a".data, (Except.ok [] : Except (List Char) (List (List Char)))),
        ("b".data, Except.error ("boom".data)), ("c".data, Except.ok [])]).2 =
        [("b".data, "boom".data)] ∧
      (processBatch [("a".data, (Except.ok [] : Except (List Char) (List (List Char)))),
        ("b".data, Except.error ("boom".data)), ("c".data, Except.ok [])]).1 =
        (processBatch [("a".data, (Except.ok [] : Except (List Char) (List (List Char)))),
          ("c".data, Except.ok [])]).1 :=
  claim_C8 [("a".data, Except.ok [])] [("c".data, Except.ok [])] ("b".data)
    ("boom".data) (by decide) (by decide)

/-- C9, counterexample: the currency-marker deletion is a single
left-to-right `re.sub` pass and is not idempotent: deleting a marker can
splice a new marker together, as in `"UUSDSD"` → `"USD"` → `""`. -/
theorem claim_C9_counterexample :
    subCurrency (subCurrency ("UUSDSD".data)) ≠ subCurrency ("UUSDSD".data) := by
  decide

/-- C9, amended: marker stripping removes the codes `USD`, `EUR`, `GBP` and
the symbols `€ $ £` (each with following whitespace) wherever they appear;
re-stripping changes nothing provided the first pass's output contains no
marker occurrence (which a spliced marker such as in `"UUSDSD"` violates);
and the position of the marker does not affect the value:
`"USD 1,234.56"` and `"1,234.56 USD"` both normalize to `1234.56`. -/
theorem claim_C9 :
    (∀ s : List Char, markerFree (subCurrency s) →
        subCurrency (subCurrency s) = subCurrency s) ∧
      clean_amount ("USD 1,234.56".data) = some (123456 / 100 : ℚ) ∧
      clean_amount ("1,234.56 USD".data) = some (123456 / 100 : ℚ) := by
  refine ⟨fun s h => subCur_eq_self_of_markerFree _ h, ?c1, ?c2⟩ <;>
  · rw [clean_amount_eval_dot ['1', '2', '3', '4'] ['5', '6']
      (by decide) (by decide) (by decide) (by decide) (by decide),
      show digitsVal ['1', '2', '3', '4'] = 1234 from by decide,
      show digitsVal ['5', '6'] = 56 from by decide,
      show (['5', '6'] : List Char).length = 2 from rfl]
    norm_num

/-- C9 witness. -/
theorem claim_C9_witness :
    markerFree (subCurrency ("USD 1,234.56".data)) ∧
      subCurrency (subCurrency ("USD 1,234.56".data)) =
        subCurrency ("USD 1,234.56".data) :=
  ⟨by decide, claim_C9.1 ("USD 1,234.56".data) (by decide)⟩

/-- C10: for every input text each amount field of the extracted record is
either absent or a non-negative value — the capture class admits no sign or
parenthesis, and `clean_amount` can only return non-negative numbers on
such captures. -/
theorem claim_C10 :
    ∀ text : List Char,
      ((extract_expense_data text).amount_due_employee = none ∨
        ∃ q, (extract_expense_data text).amount_due_employee = some q ∧ 0 ≤ q) ∧
      ((extract_expense_data text).amount_due_company_card = none ∨
        ∃ q, (extract_expense_data text).amount_due_company_card = some q ∧ 0 ≤ q) ∧
      ((extract_expense_data text).total_paid_by_company = none ∨
        ∃ q, (extract_expense_data text).total_paid_by_company = some q ∧ 0 ≤ q) :=
  fun text =>
    ⟨amountField_none_or_nonneg ("Amount Due Employee".data) text,
      amountField_none_or_nonneg ("Amount Due Company Card".data) text,
      amountField_none_or_nonneg ("Total Paid By Company".data) text⟩
